import Mathlib

/-!
Verification development for `src/edit_distance.py`, a weighted-Levenshtein
edit-prescription calculator.

The source builds a cost matrix together with an action matrix
(`get_matrix`), walks the action matrix backwards to extract an edit
prescription (`get_prescription`), and replays the prescription against the
original string (`get_redaction`).  Sequences are modelled as `List Char`,
the matrices as functions `Nat → Nat → _` defined by the DP recurrence the
nested loops implement (cell `(i, j)` only depends on cells `(i, j-1)`,
`(i-1, j)` and `(i-1, j-1)`, all of which are final before `(i, j)` is
written, so the loop-filled table and the recurrence agree).  The builder
recursion is driven by an explicit fuel argument (`fuel = i + j` always
suffices and fuel-irrelevance is proved below) so that every definition is
structurally recursive and evaluates by kernel reduction.
-/

namespace EditDistance

/-- The four operation tags `'R'`, `'I'`, `'D'`, `'M'` of the source, plus
`unset` for the `''` placeholder both matrices are initialised with (and
which the source's unknown-action branches reject at run time). -/
inductive Act : Type where
  | replace
  | insert
  | delete
  | match_
  | unset
deriving DecidableEq, Repr

/-- The `COST_MAP` of the source: `{R: 4, I: 3, D: 2, M: 0}`.  The Python dict
has no entry for `''`; every use in the source is guarded by the
unknown-action branch, so the `unset` value below is never read on any
modelled path. -/
def COST_MAP : Act → Nat
  | Act.replace => 4
  | Act.insert => 3
  | Act.delete => 2
  | Act.match_ => 0
  | Act.unset => 0

/-- One interior cell of the DP, exactly the loop body of `get_matrix`
(lines 48-62): candidates `insert = left + 3`, `delete = up + 2`,
`replace = diag + (0 if the two characters are equal else 4)`,
`optimal = min` of the three, and the action chosen by the source's
`if optimal == insert / elif optimal == delete / elif optimal == replace`
chain (a cell none of the branches claimed would keep `''`, i.e. `unset`;
the tie-break precedence Insert, then Delete, then Replace/Match is the
branch order). -/
def cellStep (a b : Char) (left up diag : Nat) : Nat × Act :=
  let replace_action := if a = b then Act.match_ else Act.replace
  let ins := left + COST_MAP Act.insert
  let del := up + COST_MAP Act.delete
  let rep := diag + COST_MAP replace_action
  let optimal := min (min ins del) rep
  (optimal,
    if optimal = ins then Act.insert
    else if optimal = del then Act.delete
    else if optimal = rep then replace_action
    else Act.unset)

/-- Fuel-driven form of the matrix builder.  Cell `(0, j)` is
`(j, Insert)` (the second border loop of `get_matrix` overwrites
`action_matrix[0][0]` with `'I'` after the first loop wrote `'D'`, and sets
`matrix[0][j] = j`); cell `(i+1, 0)` is `(i+1, Delete)`; interior cells use
`cellStep` on the two characters.  Out-of-range interior indices have no
cell in the Python matrix and are mapped to `(0, unset)`; no theorem below
looks at them.  `fuel ≥ i + j` is always enough (see `buildF_fuel_eq`). -/
def buildF (A B : List Char) : Nat → Nat → Nat → Nat × Act
  | _, 0, j => (j, Act.insert)
  | _, i + 1, 0 => (i + 1, Act.delete)
  | 0, _ + 1, _ + 1 => (0, Act.unset)
  | fuel + 1, i + 1, j + 1 =>
    match A[i]?, B[j]? with
    | some a, some b =>
        cellStep a b (buildF A B fuel (i + 1) j).1 (buildF A B fuel i (j + 1)).1
          (buildF A B fuel i j).1
    | _, _ => (0, Act.unset)

/-- The pair (cost-matrix cell, action-matrix cell) of `get_matrix`. -/
def build (A B : List Char) (i j : Nat) : Nat × Act :=
  buildF A B (i + j) i j

/-- The action matrix, the value `get_matrix` returns. -/
def get_matrix (A B : List Char) (i j : Nat) : Act :=
  (build A B i j).2

/-- The numeric cost matrix, the internal `matrix` of `get_matrix`. -/
def cost_matrix (A B : List Char) (i j : Nat) : Nat :=
  (build A B i j).1

theorem buildF_succ_of_le (A B : List Char) :
    ∀ fuel i j, i + j ≤ fuel → buildF A B (fuel + 1) i j = buildF A B fuel i j := by
  intro fuel
  induction fuel with
  | zero =>
    intro i j h
    have hi : i = 0 := by omega
    have hj : j = 0 := by omega
    subst hi; subst hj
    rfl
  | succ fuel ih =>
    intro i j h
    match i, j with
    | 0, j => rfl
    | i + 1, 0 => rfl
    | i + 1, j + 1 =>
      simp only [buildF]
      rw [ih (i + 1) j (by omega), ih i (j + 1) (by omega), ih i j (by omega)]

theorem buildF_fuel_eq (A B : List Char) :
    ∀ fuel i j, i + j ≤ fuel → buildF A B fuel i j = buildF A B (i + j) i j := by
  intro fuel i j h
  obtain ⟨d, rfl⟩ : ∃ d, fuel = (i + j) + d := ⟨fuel - (i + j), by omega⟩
  induction d with
  | zero => rfl
  | succ d ih =>
    rw [show (i + j) + (d + 1) = ((i + j) + d) + 1 from rfl,
      buildF_succ_of_le A B ((i + j) + d) i j (by omega)]
    exact ih (by omega)

theorem build_zero_left (A B : List Char) (j : Nat) :
    build A B 0 j = (j, Act.insert) := by
  simp [build, buildF]

theorem build_succ_zero (A B : List Char) (i : Nat) :
    build A B (i + 1) 0 = (i + 1, Act.delete) := by
  simp [build, buildF]

/-- The interior recurrence of `get_matrix`, stated over the clean
(fuel-free) `build`. -/
theorem build_succ_succ (A B : List Char) (i j : Nat) (a b : Char)
    (ha : A[i]? = some a) (hb : B[j]? = some b) :
    build A B (i + 1) (j + 1) =
      cellStep a b (cost_matrix A B (i + 1) j) (cost_matrix A B i (j + 1))
        (cost_matrix A B i j) := by
  have h1 : build A B (i + 1) (j + 1) = buildF A B (((i + 1) + j) + 1) (i + 1) (j + 1) := rfl
  rw [h1]
  simp only [buildF, ha, hb]
  have e1 : buildF A B ((i + 1) + j) (i + 1) j = build A B (i + 1) j := rfl
  have e2 : buildF A B ((i + 1) + j) i (j + 1) = build A B i (j + 1) := by
    rw [build, buildF_fuel_eq A B ((i + 1) + j) i (j + 1) (by omega)]
  have e3 : buildF A B ((i + 1) + j) i j = build A B i j := by
    rw [build, buildF_fuel_eq A B ((i + 1) + j) i j (by omega)]
  rw [e1, e2, e3]
  rfl

/-- The backward walk of `get_prescription` (lines 66-88): starting from
`(i, j)`, while `(i, j) ≠ (0, 0)` read the action at `(i, j)`, record it,
and move left / up / diagonally; a tag outside the four variants raises
`RuntimeError('Unknown action')`, modelled as `Except.error`.  The Python
`while` loop is driven here by a fuel argument (`fuel = i + j` is proved
sufficient for builder matrices, where every step strictly decreases
`i + j`); the index-underflow branches model moves that would make a Python
index negative, which cannot happen on builder matrices either.  The
recorded actions are accumulated in chronological order, i.e. already
reversed as the source's final `prescr.reverse()` leaves them. -/
def walkFuel (am : Nat → Nat → Act) : Nat → Nat → Nat → Except String (List Act)
  | _, 0, 0 => Except.ok []
  | 0, _ + 1, _ => Except.error "out of fuel"
  | 0, 0, _ + 1 => Except.error "out of fuel"
  | fuel + 1, i + 1, j + 1 =>
    match am (i + 1) (j + 1) with
    | Act.delete => Except.map (fun l => l ++ [Act.delete]) (walkFuel am fuel i (j + 1))
    | Act.insert => Except.map (fun l => l ++ [Act.insert]) (walkFuel am fuel (i + 1) j)
    | Act.replace => Except.map (fun l => l ++ [Act.replace]) (walkFuel am fuel i j)
    | Act.match_ => Except.map (fun l => l ++ [Act.match_]) (walkFuel am fuel i j)
    | Act.unset => Except.error "Unknown action"
  | fuel + 1, i + 1, 0 =>
    match am (i + 1) 0 with
    | Act.delete => Except.map (fun l => l ++ [Act.delete]) (walkFuel am fuel i 0)
    | Act.insert => Except.error "index underflow"
    | Act.replace => Except.error "index underflow"
    | Act.match_ => Except.error "index underflow"
    | Act.unset => Except.error "Unknown action"
  | fuel + 1, 0, j + 1 =>
    match am 0 (j + 1) with
    | Act.insert => Except.map (fun l => l ++ [Act.insert]) (walkFuel am fuel 0 j)
    | Act.delete => Except.error "index underflow"
    | Act.replace => Except.error "index underflow"
    | Act.match_ => Except.error "index underflow"
    | Act.unset => Except.error "Unknown action"

/-- Model of `get_prescription`: the walk starts at `(len(action_matrix) - 1,
len(action_matrix[0]) - 1)`, i.e. at `(i, j)` for an `(i+1) × (j+1)`
matrix. -/
def get_prescription (action_matrix : Nat → Nat → Act) (i j : Nat) :
    Except String (List Act) :=
  walkFuel action_matrix (i + j) i j

/-- The composition `get_prescription(get_matrix(original, final))` used at
the source's call site (line 160). -/
def prescriptionOf (A B : List Char) : Except String (List Act) :=
  get_prescription (get_matrix A B) A.length B.length

/-- One step of `get_redaction` (lines 101-117) on the state
`(total, i, result)`: `Delete` pops the element at cursor `i` (an
`IndexError` if `i` is out of range), `Insert` inserts `final[i]` at
position `i` and increments `i` (Python's `list.insert` clamps, hence the
`take i ++ _ ++ drop i` form, which agrees with it for every `i`; reading
`final[i]` out of range is an `IndexError`), `Match` only increments `i`,
`Replace` overwrites position `i` with `final[i]` and increments `i`, and
any other tag raises `RuntimeError('Unknown action')`.  `total` grows by
`COST_MAP[action]` after the edit. -/
def applyAct (final : List Char) (st : Nat × Nat × List Char) (action : Act) :
    Except String (Nat × Nat × List Char) :=
  let (total, i, result) := st
  match action with
  | Act.delete =>
    if i < result.length then
      Except.ok (total + COST_MAP Act.delete, i, result.take i ++ result.drop (i + 1))
    else Except.error "pop index out of range"
  | Act.insert =>
    match final[i]? with
    | some c => Except.ok (total + COST_MAP Act.insert, i + 1, result.take i ++ c :: result.drop i)
    | none => Except.error "string index out of range"
  | Act.match_ => Except.ok (total + COST_MAP Act.match_, i + 1, result)
  | Act.replace =>
    match final[i]? with
    | some c =>
      if i < result.length then
        Except.ok (total + COST_MAP Act.replace, i + 1,
          result.take i ++ c :: result.drop (i + 1))
      else Except.error "list assignment index out of range"
    | none => Except.error "string index out of range"
  | Act.unset => Except.error "Unknown action"

/-- The generator body of `get_redaction`: one `(action, i, total, result)`
tuple per prescription entry, each carrying the post-update cursor, the
cumulative cost, and the working sequence after the step (as a value — the
Python generator yields a reference to the shared mutable list). -/
def redactAux (final : List Char) :
    List Act → Nat × Nat × List Char → Except String (List (Act × Nat × Nat × List Char))
  | [], _ => Except.ok []
  | action :: rest, st => do
    let st1 ← applyAct final st action
    let tail ← redactAux final rest st1
    Except.ok ((action, st1.2.1, st1.1, st1.2.2) :: tail)

/-- Model of `get_redaction(prescription, original, final)`, with the whole trace
materialised as a list (the source produces it lazily). -/
def get_redaction (prescription : List Act) (original final : List Char) :
    Except String (List (Act × Nat × Nat × List Char)) :=
  redactAux final prescription (0, 0, original)

/-- Total cost of replaying a prescription: the final `total` of
`get_redaction`, i.e. the sum of `COST_MAP` over its entries. -/
def replayCost (P : List Act) : Nat :=
  (P.map COST_MAP).sum

/-- Number of non-`Delete` operations in a prescription (each of Insert,
Match, Replace advances the cursor `i` of `get_redaction` by one). -/
def cursorCount : List Act → Nat
  | [] => 0
  | a :: r => (if a = Act.delete then 0 else 1) + cursorCount r

/-- Number of operations consuming an element of the original sequence
(each of Delete, Match, Replace; `Insert` consumes none). -/
def origConsumed : List Act → Nat
  | [] => 0
  | a :: r => (if a = Act.insert then 0 else 1) + origConsumed r

/-- Modelled from the spec (§4.1 and the claim's recurrence): the
DP-optimal cost matrix of the *weighted* Levenshtein recurrence, with
borders `matrix[0][j] = j * insert_cost` and `matrix[i][0] = i *
delete_cost` and the same interior candidates as the code.  This is the
comparison point for the refinement claim about optimality; it is the only
definition in this file written from the spec's words rather than from the
source. -/
def specMatrixF (A B : List Char) : Nat → Nat → Nat → Nat
  | _, 0, j => j * COST_MAP Act.insert
  | _, i + 1, 0 => (i + 1) * COST_MAP Act.delete
  | 0, _ + 1, _ + 1 => 0
  | fuel + 1, i + 1, j + 1 =>
    match A[i]?, B[j]? with
    | some a, some b =>
      min (min (specMatrixF A B fuel (i + 1) j + COST_MAP Act.insert)
          (specMatrixF A B fuel i (j + 1) + COST_MAP Act.delete))
        (specMatrixF A B fuel i j + COST_MAP (if a = b then Act.match_ else Act.replace))
    | _, _ => 0

/-- The spec's weighted DP matrix at full fuel. -/
def specMatrix (A B : List Char) (i j : Nat) : Nat :=
  specMatrixF A B (i + j) i j

/-- A prescription `P` aligns the first `i` elements of `A` with the first
`j` elements of `B`: each Insert emits one element of `B`, each Delete
consumes one element of `A`, Replace/Match consume one element of `A` and
emit one element of `B`, and Match requires the two to be equal.  This is
the structural invariant of the traceback walk over a builder-produced
action matrix. -/
inductive Aligned (A B : List Char) : Nat → Nat → List Act → Prop where
  | nil : Aligned A B 0 0 []
  | ins {i j : Nat} {P : List Act} {c : Char} :
      Aligned A B i j P → B[j]? = some c → Aligned A B i (j + 1) (P ++ [Act.insert])
  | del {i j : Nat} {P : List Act} {a : Char} :
      Aligned A B i j P → A[i]? = some a → Aligned A B (i + 1) j (P ++ [Act.delete])
  | rep {i j : Nat} {P : List Act} {a b : Char} :
      Aligned A B i j P → A[i]? = some a → B[j]? = some b → a ≠ b →
      Aligned A B (i + 1) (j + 1) (P ++ [Act.replace])
  | mat {i j : Nat} {P : List Act} {a : Char} :
      Aligned A B i j P → A[i]? = some a → B[j]? = some a →
      Aligned A B (i + 1) (j + 1) (P ++ [Act.match_])

/-! Basic facts about one interior cell -/

theorem cellStep_ne_unset (a b : Char) (l u d : Nat) :
    (cellStep a b l u d).2 ≠ Act.unset := by
  simp only [cellStep]
  by_cases hab : a = b
  · rw [if_pos hab]
    split_ifs <;> intro hcontra <;> first | exact Act.noConfusion hcontra | omega
  · rw [if_neg hab]
    split_ifs <;> intro hcontra <;> first | exact Act.noConfusion hcontra | omega

theorem cellStep_match_eq (a b : Char) (l u d : Nat)
    (h : (cellStep a b l u d).2 = Act.match_) : a = b := by
  by_cases hab : a = b
  · exact hab
  · exfalso
    simp only [cellStep, if_neg hab] at h
    split_ifs at h

theorem cellStep_replace_ne (a b : Char) (l u d : Nat)
    (h : (cellStep a b l u d).2 = Act.replace) : a ≠ b := by
  intro hab
  simp only [cellStep, if_pos hab] at h
  split_ifs at h

/-! Step equations for the traceback walk -/

theorem walkFuel_zero_zero (am : Nat → Nat → Act) (fuel : Nat) :
    walkFuel am fuel 0 0 = Except.ok [] := by
  cases fuel <;> rfl

theorem walkFuel_col_delete (am : Nat → Nat → Act) (fuel i : Nat)
    (ha : am (i + 1) 0 = Act.delete) :
    walkFuel am (fuel + 1) (i + 1) 0 =
      Except.map (fun l => l ++ [Act.delete]) (walkFuel am fuel i 0) := by
  simp only [walkFuel, ha]

theorem walkFuel_row_insert (am : Nat → Nat → Act) (fuel j : Nat)
    (ha : am 0 (j + 1) = Act.insert) :
    walkFuel am (fuel + 1) 0 (j + 1) =
      Except.map (fun l => l ++ [Act.insert]) (walkFuel am fuel 0 j) := by
  simp only [walkFuel, ha]

theorem walkFuel_delete (am : Nat → Nat → Act) (fuel i j : Nat)
    (ha : am (i + 1) (j + 1) = Act.delete) :
    walkFuel am (fuel + 1) (i + 1) (j + 1) =
      Except.map (fun l => l ++ [Act.delete]) (walkFuel am fuel i (j + 1)) := by
  simp only [walkFuel, ha]

theorem walkFuel_insert (am : Nat → Nat → Act) (fuel i j : Nat)
    (ha : am (i + 1) (j + 1) = Act.insert) :
    walkFuel am (fuel + 1) (i + 1) (j + 1) =
      Except.map (fun l => l ++ [Act.insert]) (walkFuel am fuel (i + 1) j) := by
  simp only [walkFuel, ha]

theorem walkFuel_replace (am : Nat → Nat → Act) (fuel i j : Nat)
    (ha : am (i + 1) (j + 1) = Act.replace) :
    walkFuel am (fuel + 1) (i + 1) (j + 1) =
      Except.map (fun l => l ++ [Act.replace]) (walkFuel am fuel i j) := by
  simp only [walkFuel, ha]

theorem walkFuel_match (am : Nat → Nat → Act) (fuel i j : Nat)
    (ha : am (i + 1) (j + 1) = Act.match_) :
    walkFuel am (fuel + 1) (i + 1) (j + 1) =
      Except.map (fun l => l ++ [Act.match_]) (walkFuel am fuel i j) := by
  simp only [walkFuel, ha]

/-! Facts about aligned prescriptions -/

theorem getElem?_some_lt {l : List Char} {n : Nat} {a : Char} (h : l[n]? = some a) :
    n < l.length := by
  by_contra hn
  rw [List.getElem?_eq_none (by omega)] at h
  exact Option.noConfusion h

theorem cursorCount_append (P Q : List Act) :
    cursorCount (P ++ Q) = cursorCount P + cursorCount Q := by
  induction P with
  | nil => simp [cursorCount]
  | cons a r ih =>
    show cursorCount (a :: (r ++ Q)) = cursorCount (a :: r) + cursorCount Q
    simp only [cursorCount]
    rw [ih]
    omega

theorem origConsumed_append (P Q : List Act) :
    origConsumed (P ++ Q) = origConsumed P + origConsumed Q := by
  induction P with
  | nil => simp [origConsumed]
  | cons a r ih =>
    show origConsumed (a :: (r ++ Q)) = origConsumed (a :: r) + origConsumed Q
    simp only [origConsumed]
    rw [ih]
    omega

theorem aligned_le {A B : List Char} :
    ∀ {i j : Nat} {P : List Act}, Aligned A B i j P → i ≤ A.length ∧ j ≤ B.length := by
  intro i j P h
  induction h with
  | nil => exact ⟨Nat.zero_le _, Nat.zero_le _⟩
  | ins h hc ih => exact ⟨ih.1, getElem?_some_lt hc⟩
  | del h ha ih => exact ⟨getElem?_some_lt ha, ih.2⟩
  | rep h ha hb hne ih => exact ⟨getElem?_some_lt ha, getElem?_some_lt hb⟩
  | mat h ha hb ih => exact ⟨getElem?_some_lt ha, getElem?_some_lt hb⟩

theorem aligned_counts {A B : List Char} :
    ∀ {i j : Nat} {P : List Act}, Aligned A B i j P →
      cursorCount P = j ∧ origConsumed P = i := by
  intro i j P h
  induction h with
  | nil => exact ⟨rfl, rfl⟩
  | ins h hc ih =>
    simp only [cursorCount_append, origConsumed_append, cursorCount, origConsumed, ih.1, ih.2]
    constructor <;> simp
  | del h ha ih =>
    simp only [cursorCount_append, origConsumed_append, cursorCount, origConsumed, ih.1, ih.2]
    constructor <;> simp
  | rep h ha hb hne ih =>
    simp only [cursorCount_append, origConsumed_append, cursorCount, origConsumed, ih.1, ih.2]
    constructor <;> simp
  | mat h ha hb ih =>
    simp only [cursorCount_append, origConsumed_append, cursorCount, origConsumed, ih.1, ih.2]
    constructor <;> simp

theorem aligned_length {A B : List Char} :
    ∀ {i j : Nat} {P : List Act}, Aligned A B i j P →
      max i j ≤ P.length ∧ P.length ≤ i + j := by
  intro i j P h
  induction h with
  | nil => simp
  | ins h hc ih => simp only [List.length_append, List.length_cons, List.length_nil]; omega
  | del h ha ih => simp only [List.length_append, List.length_cons, List.length_nil]; omega
  | rep h ha hb hne ih => simp only [List.length_append, List.length_cons, List.length_nil]; omega
  | mat h ha hb ih => simp only [List.length_append, List.length_cons, List.length_nil]; omega

/-! The traceback walk succeeds on builder matrices and yields an
aligned prescription -/

theorem walk_ok (A B : List Char) :
    ∀ fuel i j, i ≤ A.length → j ≤ B.length → i + j ≤ fuel →
      ∃ P, walkFuel (get_matrix A B) fuel i j = Except.ok P ∧ Aligned A B i j P := by
  intro fuel
  induction fuel with
  | zero =>
    intro i j hi hj hf
    have hi0 : i = 0 := by omega
    have hj0 : j = 0 := by omega
    subst hi0; subst hj0
    exact ⟨[], walkFuel_zero_zero _ _, Aligned.nil⟩
  | succ fuel ih =>
    intro i j hi hj hf
    rcases i with _ | i <;> rcases j with _ | j
    · exact ⟨[], walkFuel_zero_zero _ _, Aligned.nil⟩
    · -- border row 0, cell (0, j+1): action Insert
      have hact : get_matrix A B 0 (j + 1) = Act.insert := by
        show (build A B 0 (j + 1)).2 = Act.insert
        rw [build_zero_left]
      have hjb : j < B.length := by omega
      have hb : B[j]? = some B[j] := List.getElem?_eq_getElem hjb
      obtain ⟨P, hP, hal⟩ := ih 0 j (by omega) (by omega) (by omega)
      refine ⟨P ++ [Act.insert], ?_, Aligned.ins hal hb⟩
      rw [walkFuel_row_insert _ _ _ hact, hP]
      rfl
    · -- border column 0, cell (i+1, 0): action Delete
      have hact : get_matrix A B (i + 1) 0 = Act.delete := by
        show (build A B (i + 1) 0).2 = Act.delete
        rw [build_succ_zero]
      have hia : i < A.length := by omega
      have ha : A[i]? = some A[i] := List.getElem?_eq_getElem hia
      obtain ⟨P, hP, hal⟩ := ih i 0 (by omega) (by omega) (by omega)
      refine ⟨P ++ [Act.delete], ?_, Aligned.del hal ha⟩
      rw [walkFuel_col_delete _ _ _ hact, hP]
      rfl
    · -- interior cell (i+1, j+1)
      have hia : i < A.length := by omega
      have hjb : j < B.length := by omega
      have ha : A[i]? = some A[i] := List.getElem?_eq_getElem hia
      have hb : B[j]? = some B[j] := List.getElem?_eq_getElem hjb
      have hcell : get_matrix A B (i + 1) (j + 1) =
          (cellStep A[i] B[j] (cost_matrix A B (i + 1) j) (cost_matrix A B i (j + 1))
            (cost_matrix A B i j)).2 := by
        show (build A B (i + 1) (j + 1)).2 = _
        rw [build_succ_succ A B i j _ _ ha hb]
      cases hact : (cellStep A[i] B[j] (cost_matrix A B (i + 1) j) (cost_matrix A B i (j + 1))
          (cost_matrix A B i j)).2 with
      | replace =>
        have hne := cellStep_replace_ne _ _ _ _ _ hact
        obtain ⟨P, hP, hal⟩ := ih i j (by omega) (by omega) (by omega)
        refine ⟨P ++ [Act.replace], ?_, Aligned.rep hal ha hb hne⟩
        rw [walkFuel_replace _ _ _ _ (hcell.trans hact), hP]
        rfl
      | insert =>
        obtain ⟨P, hP, hal⟩ := ih (i + 1) j (by omega) (by omega) (by omega)
        refine ⟨P ++ [Act.insert], ?_, Aligned.ins hal hb⟩
        rw [walkFuel_insert _ _ _ _ (hcell.trans hact), hP]
        rfl
      | delete =>
        obtain ⟨P, hP, hal⟩ := ih i (j + 1) (by omega) (by omega) (by omega)
        refine ⟨P ++ [Act.delete], ?_, Aligned.del hal ha⟩
        rw [walkFuel_delete _ _ _ _ (hcell.trans hact), hP]
        rfl
      | match_ =>
        have heq := cellStep_match_eq _ _ _ _ _ hact
        obtain ⟨P, hP, hal⟩ := ih i j (by omega) (by omega) (by omega)
        refine ⟨P ++ [Act.match_], ?_, Aligned.mat hal ha (by rw [← heq] at hb; exact hb)⟩
        rw [walkFuel_match _ _ _ _ (hcell.trans hact), hP]
        rfl
      | unset => exact absurd hact (cellStep_ne_unset _ _ _ _ _)

/-! Replay of an aligned prescription through the redaction semantics -/

theorem replayCost_append (P Q : List Act) :
    replayCost (P ++ Q) = replayCost P + replayCost Q := by
  simp [replayCost]

theorem bind_ok_eq {α β : Type} (a : α) (f : α → Except String β) :
    (Except.ok a >>= f) = f a := rfl

theorem drop_eq_cons_of_getElem? {l : List Char} {n : Nat} {a : Char}
    (h : l[n]? = some a) : l.drop n = a :: l.drop (n + 1) := by
  have hlt := getElem?_some_lt h
  rw [List.getElem?_eq_getElem hlt] at h
  rw [List.drop_eq_getElem_cons hlt, Option.some.inj h]

/-- Taking on the working sequence `B.take j ++ A.drop i` below the cursor. -/
theorem work_take {A B : List Char} {i j : Nat} (hj : j ≤ B.length) :
    (B.take j ++ A.drop i).take j = B.take j := by
  have h1 : (B.take j).length = j := by rw [List.length_take]; omega
  rw [List.take_append_eq_append_take, h1, Nat.sub_self, List.take_zero, List.append_nil,
    List.take_of_length_le (le_of_eq h1)]

/-- Dropping on the working sequence at or past the cursor. -/
theorem work_drop {A B : List Char} {i j n : Nat} (hj : j ≤ B.length) (hn : j ≤ n) :
    (B.take j ++ A.drop i).drop n = (A.drop i).drop (n - j) := by
  have h1 : (B.take j).length = j := by rw [List.length_take]; omega
  rw [List.drop_append_eq_append_drop, h1, List.drop_eq_nil_of_le (by omega),
    List.nil_append]

theorem work_length {A B : List Char} {i j : Nat} (hj : j ≤ B.length) (hi : i < A.length) :
    j < (B.take j ++ A.drop i).length := by
  have h1 : (B.take j).length = j := by rw [List.length_take]; omega
  rw [List.length_append, h1, List.length_drop]
  omega

/-- The central replay invariant: for an aligned prescription, every prefix
of the replay succeeds, the cursor equals the number of non-Delete
operations so far, the running total is the replayed cost so far, and the
working sequence is the emitted prefix of `final` followed by the
unconsumed suffix of `original`. -/
theorem replay_invariant (A B : List Char) :
    ∀ {i j : Nat} {P : List Act}, Aligned A B i j P → ∀ k : Nat,
      List.foldlM (applyAct B) ((0 : Nat), (0 : Nat), A) (P.take k) =
        Except.ok (replayCost (P.take k), cursorCount (P.take k),
          B.take (cursorCount (P.take k)) ++ A.drop (origConsumed (P.take k))) := by
  intro i j P h
  induction h with
  | nil =>
    intro k
    simp [List.take_nil, List.foldlM_nil, replayCost, cursorCount, origConsumed]
    rfl
  | @ins i j P c h hc ih =>
    intro k
    rcases le_or_lt k P.length with hk | hk
    · rw [List.take_append_eq_append_take, Nat.sub_eq_zero_of_le hk, List.take_zero,
        List.append_nil]
      exact ih k
    · have hfull : (P ++ [Act.insert]).take k = P ++ [Act.insert] :=
        List.take_of_length_le (by simp; omega)
      rw [hfull, List.foldlM_append]
      have hIH := ih P.length
      rw [List.take_length, (aligned_counts h).1, (aligned_counts h).2] at hIH
      rw [hIH]
      have hjb : j < B.length := getElem?_some_lt hc
      have hw : (B.take j ++ A.drop i).take j ++ c :: (B.take j ++ A.drop i).drop j =
          B.take (j + 1) ++ A.drop i := by
        rw [work_take (le_of_lt hjb), @work_drop A B i j j (le_of_lt hjb) (le_refl j),
          Nat.sub_self, List.drop_zero, List.take_succ, hc, Option.toList_some,
          List.append_cons]
      have happ : applyAct B (replayCost P, j, B.take j ++ A.drop i) Act.insert =
          Except.ok (replayCost P + COST_MAP Act.insert, j + 1,
            B.take (j + 1) ++ A.drop i) := by
        simp only [applyAct, hc]
        rw [hw]
      simp only [bind_ok_eq, List.foldlM_cons, List.foldlM_nil, happ]
      rw [cursorCount_append, origConsumed_append, replayCost_append,
        (aligned_counts h).1, (aligned_counts h).2]
      rfl
  | @del i j P a h ha ih =>
    intro k
    rcases le_or_lt k P.length with hk | hk
    · rw [List.take_append_eq_append_take, Nat.sub_eq_zero_of_le hk, List.take_zero,
        List.append_nil]
      exact ih k
    · have hfull : (P ++ [Act.delete]).take k = P ++ [Act.delete] :=
        List.take_of_length_le (by simp; omega)
      rw [hfull, List.foldlM_append]
      have hIH := ih P.length
      rw [List.take_length, (aligned_counts h).1, (aligned_counts h).2] at hIH
      rw [hIH]
      have hia : i < A.length := getElem?_some_lt ha
      have hjb : j ≤ B.length := (aligned_le h).2
      have hw : (B.take j ++ A.drop i).take j ++ (B.take j ++ A.drop i).drop (j + 1) =
          B.take j ++ A.drop (i + 1) := by
        rw [work_take hjb, @work_drop A B i j (j + 1) hjb (by omega)]
        have h1 : j + 1 - j = 1 := by omega
        rw [h1, List.drop_drop]
      have happ : applyAct B (replayCost P, j, B.take j ++ A.drop i) Act.delete =
          Except.ok (replayCost P + COST_MAP Act.delete, j,
            B.take j ++ A.drop (i + 1)) := by
        simp only [applyAct, if_pos (work_length hjb hia)]
        rw [hw]
      simp only [bind_ok_eq, List.foldlM_cons, List.foldlM_nil, happ]
      rw [cursorCount_append, origConsumed_append, replayCost_append,
        (aligned_counts h).1, (aligned_counts h).2]
      rfl
  | @rep i j P a b h ha hb hne ih =>
    intro k
    rcases le_or_lt k P.length with hk | hk
    · rw [List.take_append_eq_append_take, Nat.sub_eq_zero_of_le hk, List.take_zero,
        List.append_nil]
      exact ih k
    · have hfull : (P ++ [Act.replace]).take k = P ++ [Act.replace] :=
        List.take_of_length_le (by simp; omega)
      rw [hfull, List.foldlM_append]
      have hIH := ih P.length
      rw [List.take_length, (aligned_counts h).1, (aligned_counts h).2] at hIH
      rw [hIH]
      have hia : i < A.length := getElem?_some_lt ha
      have hjb : j < B.length := getElem?_some_lt hb
      have hw : (B.take j ++ A.drop i).take j ++ b :: (B.take j ++ A.drop i).drop (j + 1) =
          B.take (j + 1) ++ A.drop (i + 1) := by
        rw [work_take (le_of_lt hjb), @work_drop A B i j (j + 1) (le_of_lt hjb) (by omega)]
        have h1 : j + 1 - j = 1 := by omega
        rw [h1, List.drop_drop, List.take_succ, hb, Option.toList_some, List.append_cons]
      have happ : applyAct B (replayCost P, j, B.take j ++ A.drop i) Act.replace =
          Except.ok (replayCost P + COST_MAP Act.replace, j + 1,
            B.take (j + 1) ++ A.drop (i + 1)) := by
        simp only [applyAct, hb, if_pos (work_length (le_of_lt hjb) hia)]
        rw [hw]
      simp only [bind_ok_eq, List.foldlM_cons, List.foldlM_nil, happ]
      rw [cursorCount_append, origConsumed_append, replayCost_append,
        (aligned_counts h).1, (aligned_counts h).2]
      rfl
  | @mat i j P a h ha hb ih =>
    intro k
    rcases le_or_lt k P.length with hk | hk
    · rw [List.take_append_eq_append_take, Nat.sub_eq_zero_of_le hk, List.take_zero,
        List.append_nil]
      exact ih k
    · have hfull : (P ++ [Act.match_]).take k = P ++ [Act.match_] :=
        List.take_of_length_le (by simp; omega)
      rw [hfull, List.foldlM_append]
      have hIH := ih P.length
      rw [List.take_length, (aligned_counts h).1, (aligned_counts h).2] at hIH
      rw [hIH]
      have hia : i < A.length := getElem?_some_lt ha
      have hjb : j < B.length := getElem?_some_lt hb
      have hw : B.take j ++ A.drop i = B.take (j + 1) ++ A.drop (i + 1) := by
        rw [drop_eq_cons_of_getElem? ha, List.take_succ, hb, Option.toList_some,
          List.append_cons]
      have happ : applyAct B (replayCost P, j, B.take j ++ A.drop i) Act.match_ =
          Except.ok (replayCost P + COST_MAP Act.match_, j + 1,
            B.take (j + 1) ++ A.drop (i + 1)) := by
        simp only [applyAct]
        rw [hw]
      simp only [bind_ok_eq, List.foldlM_cons, List.foldlM_nil, happ]
      rw [cursorCount_append, origConsumed_append, replayCost_append,
        (aligned_counts h).1, (aligned_counts h).2]
      rfl

/-! From the state fold to the emitted trace -/

theorem bind_error_eq {α β : Type} (e : String) (f : α → Except String β) :
    (Except.error e >>= f) = Except.error e := rfl

/-- If folding `applyAct` over a prescription succeeds, `get_redaction`'s
trace exists, and its last snapshot (defaulting to the initial working
sequence when there are no steps) is the final working sequence. -/
theorem redactAux_of_foldlM (final : List Char) :
    ∀ (P : List Act) (st st' : Nat × Nat × List Char),
      List.foldlM (applyAct final) st P = Except.ok st' →
      ∃ trace, redactAux final P st = Except.ok trace ∧
        (trace.map (fun s => s.2.2.2)).getLastD st.2.2 = st'.2.2 := by
  intro P
  induction P with
  | nil =>
    intro st st' h
    rw [List.foldlM_nil] at h
    have h' : Except.ok st = Except.ok st' := h
    cases Except.ok.inj h'
    exact ⟨[], rfl, rfl⟩
  | cons a rest ih =>
    intro st st' h
    rw [List.foldlM_cons] at h
    cases happ : applyAct final st a with
    | error e =>
      rw [happ, bind_error_eq] at h
      exact Except.noConfusion h
    | ok st1 =>
      rw [happ, bind_ok_eq] at h
      obtain ⟨tail, htail, hlast⟩ := ih st1 st' h
      refine ⟨(a, st1.2.1, st1.1, st1.2.2) :: tail, ?_, ?_⟩
      · simp only [redactAux, happ, bind_ok_eq, htail]
      · simp only [List.map_cons, List.getLastD_cons]
        exact hlast

/-! Diagonal and border walks -/

theorem cellStep_self (a : Char) (l u : Nat) :
    cellStep a a l u 0 = (0, Act.match_) := by
  simp only [cellStep, COST_MAP, eq_self_iff_true, if_true]
  have h1 : min (min (l + 3) (u + 2)) (0 + 0) = 0 := by omega
  rw [h1, if_neg (by omega), if_neg (by omega), if_pos (by omega)]

theorem build_diag (A : List Char) :
    ∀ i, i ≤ A.length →
      build A A i i = (0, if i = 0 then Act.insert else Act.match_) := by
  intro i
  induction i with
  | zero =>
    intro _
    rw [build_zero_left]
    rfl
  | succ i ih =>
    intro hi
    have hia : i < A.length := by omega
    have ha : A[i]? = some A[i] := List.getElem?_eq_getElem hia
    rw [build_succ_succ A A i i _ _ ha ha]
    have hdiag : cost_matrix A A i i = 0 := by
      show (build A A i i).1 = 0
      rw [ih (by omega)]
    rw [hdiag, if_neg (Nat.succ_ne_zero i)]
    exact cellStep_self _ _ _

theorem walk_diag (A : List Char) :
    ∀ i fuel, i ≤ A.length → i + i ≤ fuel →
      walkFuel (get_matrix A A) fuel i i =
        Except.ok (List.replicate i Act.match_) := by
  intro i
  induction i with
  | zero =>
    intro fuel _ _
    rw [walkFuel_zero_zero]
    rfl
  | succ i ih =>
    intro fuel hi hfuel
    rcases fuel with _ | fuel
    · omega
    · have hact : get_matrix A A (i + 1) (i + 1) = Act.match_ := by
        show (build A A (i + 1) (i + 1)).2 = _
        rw [build_diag A (i + 1) hi, if_neg (Nat.succ_ne_zero i)]
      rw [walkFuel_match _ _ _ _ hact, ih fuel (by omega) (by omega)]
      show Except.ok _ = _
      rw [List.replicate_succ']

theorem walk_row (A B : List Char) :
    ∀ j fuel, j ≤ fuel →
      walkFuel (get_matrix A B) fuel 0 j =
        Except.ok (List.replicate j Act.insert) := by
  intro j
  induction j with
  | zero =>
    intro fuel _
    rw [walkFuel_zero_zero]
    rfl
  | succ j ih =>
    intro fuel hf
    rcases fuel with _ | fuel
    · omega
    · have hact : get_matrix A B 0 (j + 1) = Act.insert := by
        show (build A B 0 (j + 1)).2 = _
        rw [build_zero_left]
      rw [walkFuel_row_insert _ _ _ hact, ih fuel (by omega)]
      show Except.ok _ = _
      rw [List.replicate_succ']

theorem walk_col (A B : List Char) :
    ∀ i fuel, i ≤ fuel →
      walkFuel (get_matrix A B) fuel i 0 =
        Except.ok (List.replicate i Act.delete) := by
  intro i
  induction i with
  | zero =>
    intro fuel _
    rw [walkFuel_zero_zero]
    rfl
  | succ i ih =>
    intro fuel hf
    rcases fuel with _ | fuel
    · omega
    · have hact : get_matrix A B (i + 1) 0 = Act.delete := by
        show (build A B (i + 1) 0).2 = _
        rw [build_succ_zero]
      rw [walkFuel_col_delete _ _ _ hact, ih fuel (by omega)]
      show Except.ok _ = _
      rw [List.replicate_succ']

/-! The claims -/

/-- C1 (code bug): the claim says the replayed cost of the prescription for
`(A, B)` equals the weighted-DP optimum `specMatrix A B |A| |B|` (borders
`j * insert_cost` / `i * delete_cost`).  The code initialises the borders
as `matrix[0][j] = j` and `matrix[i][0] = i` instead, so for
`original = "a"`, `final = "bc"` it returns the prescription
`[Insert, Insert, Delete]` with replayed cost `8`, while the weighted
optimum is `7`, attained by the valid alignment `[Replace, Insert]`. -/
theorem C1_optimality_bug :
    prescriptionOf "a".toList "bc".toList =
      Except.ok [Act.insert, Act.insert, Act.delete] ∧
    replayCost [Act.insert, Act.insert, Act.delete] = 8 ∧
    specMatrix "a".toList "bc".toList 1 2 = 7 ∧
    replayCost [Act.insert, Act.insert, Act.delete] ≠
      specMatrix "a".toList "bc".toList 1 2 ∧
    Aligned "a".toList "bc".toList 1 2 [Act.replace, Act.insert] ∧
    replayCost [Act.replace, Act.insert] = 7 := by
  refine ⟨rfl, rfl, rfl, by decide, ?_, rfl⟩
  have h1 : Aligned "a".toList "bc".toList 1 1 ([] ++ [Act.replace]) :=
    Aligned.rep Aligned.nil rfl rfl (by decide)
  have h2 : Aligned "a".toList "bc".toList 1 2 (([] ++ [Act.replace]) ++ [Act.insert]) :=
    Aligned.ins h1 rfl
  exact h2

/-- C2 (code bug): the claim says the cost-matrix borders are
`matrix[0][j] = j * insert_cost` and `matrix[i][0] = i * delete_cost` and
the action borders are Insert on row 0, Delete on column 0.  The code sets
`matrix[0][j] = j` and `matrix[i][0] = i` (lines 41, 45), so already at
`j = 1` the cost is `1 ≠ 1 * 3` and at `i = 1` it is `1 ≠ 1 * 2`; moreover
the corner cell `(0, 0)` of the action matrix ends up as Insert, not
Delete, because the row-0 loop runs second. -/
theorem C2_border_bug :
    cost_matrix "a".toList "b".toList 0 1 = 1 ∧
    (1 : Nat) ≠ 1 * COST_MAP Act.insert ∧
    cost_matrix "a".toList "b".toList 1 0 = 1 ∧
    (1 : Nat) ≠ 1 * COST_MAP Act.delete ∧
    get_matrix "a".toList "b".toList 0 1 = Act.insert ∧
    get_matrix "a".toList "b".toList 1 0 = Act.delete ∧
    get_matrix "a".toList "b".toList 0 0 = Act.insert := by
  exact ⟨rfl, by decide, rfl, by decide, rfl, rfl, rfl⟩

/-- C3: replaying the prescription of `get_prescription(get_matrix(A, B))`
through `get_redaction` succeeds, and the working-sequence snapshot of the
last step (the original sequence when there are no steps) is exactly `B`,
for every `A` and `B`. -/
theorem C3_round_trip (A B : List Char) :
    ∃ P trace,
      prescriptionOf A B = Except.ok P ∧
      get_redaction P A B = Except.ok trace ∧
      (trace.map (fun s => s.2.2.2)).getLastD A = B := by
  obtain ⟨P, hP, hal⟩ :=
    walk_ok A B (A.length + B.length) A.length B.length le_rfl le_rfl le_rfl
  have hfold := replay_invariant A B hal P.length
  rw [List.take_length, (aligned_counts hal).1, (aligned_counts hal).2,
    List.take_length, List.drop_length, List.append_nil] at hfold
  obtain ⟨trace, htrace, hlast⟩ := redactAux_of_foldlM B P (0, 0, A) _ hfold
  exact ⟨P, trace, hP, htrace, hlast⟩

/-- C4: for every `A`, the prescription for `(A, A)` is all-Match, of
length `len A`, with replayed cost `0`. -/
theorem C4_self_prescription (A : List Char) :
    prescriptionOf A A = Except.ok (List.replicate A.length Act.match_) ∧
    (List.replicate A.length Act.match_).length = A.length ∧
    replayCost (List.replicate A.length Act.match_) = 0 := by
  refine ⟨?_, by simp, ?_⟩
  · exact walk_diag A A.length (A.length + A.length) le_rfl le_rfl
  · simp [replayCost, List.map_replicate, COST_MAP]

/-- C5: the prescription for `("", B)` is all-Insert of length `len B`,
the prescription for `(A, "")` is all-Delete of length `len A`, and with
both inputs empty the prescription is empty. -/
theorem C5_empty_cases (A B : List Char) :
    prescriptionOf [] B = Except.ok (List.replicate B.length Act.insert) ∧
    prescriptionOf A [] = Except.ok (List.replicate A.length Act.delete) ∧
    prescriptionOf [] [] = Except.ok [] := by
  refine ⟨?_, ?_, rfl⟩
  · exact walk_row [] B B.length _ (by omega)
  · exact walk_col A [] A.length _ (by omega)

/-- C6: in every interior cell `(i+1, j+1)` the recorded action follows
the fixed precedence of the source's branch chain: Insert whenever the
insert candidate attains the minimum of the three candidates, Delete
whenever the delete candidate attains it but insert does not, and
Replace/Match exactly when neither insert nor delete attains it. -/
theorem C6_tie_break (A B : List Char) (i j : Nat) (a b : Char)
    (ha : A[i]? = some a) (hb : B[j]? = some b) :
    (min (min (cost_matrix A B (i + 1) j + COST_MAP Act.insert)
          (cost_matrix A B i (j + 1) + COST_MAP Act.delete))
        (cost_matrix A B i j + COST_MAP (if a = b then Act.match_ else Act.replace)) =
          cost_matrix A B (i + 1) j + COST_MAP Act.insert →
      get_matrix A B (i + 1) (j + 1) = Act.insert) ∧
    (min (min (cost_matrix A B (i + 1) j + COST_MAP Act.insert)
          (cost_matrix A B i (j + 1) + COST_MAP Act.delete))
        (cost_matrix A B i j + COST_MAP (if a = b then Act.match_ else Act.replace)) ≠
          cost_matrix A B (i + 1) j + COST_MAP Act.insert →
      min (min (cost_matrix A B (i + 1) j + COST_MAP Act.insert)
          (cost_matrix A B i (j + 1) + COST_MAP Act.delete))
        (cost_matrix A B i j + COST_MAP (if a = b then Act.match_ else Act.replace)) =
          cost_matrix A B i (j + 1) + COST_MAP Act.delete →
      get_matrix A B (i + 1) (j + 1) = Act.delete) ∧
    (min (min (cost_matrix A B (i + 1) j + COST_MAP Act.insert)
          (cost_matrix A B i (j + 1) + COST_MAP Act.delete))
        (cost_matrix A B i j + COST_MAP (if a = b then Act.match_ else Act.replace)) ≠
          cost_matrix A B (i + 1) j + COST_MAP Act.insert →
      min (min (cost_matrix A B (i + 1) j + COST_MAP Act.insert)
          (cost_matrix A B i (j + 1) + COST_MAP Act.delete))
        (cost_matrix A B i j + COST_MAP (if a = b then Act.match_ else Act.replace)) ≠
          cost_matrix A B i (j + 1) + COST_MAP Act.delete →
      get_matrix A B (i + 1) (j + 1) = (if a = b then Act.match_ else Act.replace)) := by
  have hact : get_matrix A B (i + 1) (j + 1) =
      (cellStep a b (cost_matrix A B (i + 1) j) (cost_matrix A B i (j + 1))
        (cost_matrix A B i j)).2 := by
    show (build A B (i + 1) (j + 1)).2 = _
    rw [build_succ_succ A B i j a b ha hb]
  rw [hact]
  simp only [cellStep]
  refine ⟨fun h1 => ?_, fun h1 h2 => ?_, fun h1 h2 => ?_⟩
  · rw [if_pos h1]
  · rw [if_neg h1, if_pos h2]
  · have h3 : min (min (cost_matrix A B (i + 1) j + COST_MAP Act.insert)
          (cost_matrix A B i (j + 1) + COST_MAP Act.delete))
        (cost_matrix A B i j + COST_MAP (if a = b then Act.match_ else Act.replace)) =
          cost_matrix A B i j + COST_MAP (if a = b then Act.match_ else Act.replace) := by
      omega
    rw [if_neg h1, if_neg h2, if_pos h3]

/-- Witness for C6 at `A = "a"`, `B = "b"`, interior cell `(1, 1)`: the
delete candidate (`1 + 2 = 3`) is the unique minimum, so the recorded
action is Delete. -/
theorem C6_tie_break_witness :
    get_matrix "a".toList "b".toList 1 1 = Act.delete :=
  (C6_tie_break "a".toList "b".toList 0 0 'a' 'b' rfl rfl).2.1 (by decide) (by decide)

/-- C7: on builder-produced action matrices the traceback terminates with
a prescription (no error is ever reached), and every cell of a builder
matrix holds one of the four known tags, so the unknown-action branch is
unreachable. -/
theorem C7_termination (A B : List Char) :
    (∃ P, get_prescription (get_matrix A B) A.length B.length = Except.ok P) ∧
    ∀ i j : Nat, i ≤ A.length → j ≤ B.length → get_matrix A B i j ≠ Act.unset := by
  constructor
  · obtain ⟨P, hP, _⟩ :=
      walk_ok A B (A.length + B.length) A.length B.length le_rfl le_rfl le_rfl
    exact ⟨P, hP⟩
  · intro i j hi hj
    rcases i with _ | i <;> rcases j with _ | j
    · show (build A B 0 0).2 ≠ _
      rw [build_zero_left]
      exact fun hcontra => Act.noConfusion hcontra
    · show (build A B 0 (j + 1)).2 ≠ _
      rw [build_zero_left]
      exact fun hcontra => Act.noConfusion hcontra
    · show (build A B (i + 1) 0).2 ≠ _
      rw [build_succ_zero]
      exact fun hcontra => Act.noConfusion hcontra
    · have hia : i < A.length := by omega
      have hjb : j < B.length := by omega
      show (build A B (i + 1) (j + 1)).2 ≠ _
      rw [build_succ_succ A B i j A[i] B[j] (List.getElem?_eq_getElem hia)
        (List.getElem?_eq_getElem hjb)]
      exact cellStep_ne_unset _ _ _ _ _

/-- Witness for C7 at `A = "ab"`, `B = "b"`. -/
theorem C7_termination_witness :
    get_matrix "ab".toList "b".toList 1 1 ≠ Act.unset :=
  (C7_termination "ab".toList "b".toList).2 1 1 (by decide) (by decide)

/-- C9: the prescription for `(A, B)` always exists and its length is
between `max |A| |B|` and `|A| + |B|`. -/
theorem C9_length_bounds (A B : List Char) :
    ∃ P, prescriptionOf A B = Except.ok P ∧
      max A.length B.length ≤ P.length ∧ P.length ≤ A.length + B.length := by
  obtain ⟨P, hP, hal⟩ :=
    walk_ok A B (A.length + B.length) A.length B.length le_rfl le_rfl le_rfl
  exact ⟨P, hP, (aligned_length hal).1, (aligned_length hal).2⟩

/-- C10: replaying any prefix of the prescription of `(A, B)` through
`get_redaction`'s per-step transition succeeds, the cursor after `k` steps
equals the number of non-Delete operations among them, and the working
sequence is the first `cursor` elements of `B` followed by the unconsumed
suffix of `A`. -/
theorem C10_replay_cursor (A B : List Char) :
    ∃ P, prescriptionOf A B = Except.ok P ∧ ∀ k : Nat, ∃ total : Nat,
      List.foldlM (applyAct B) ((0 : Nat), (0 : Nat), A) (P.take k) =
        Except.ok (total, cursorCount (P.take k),
          B.take (cursorCount (P.take k)) ++ A.drop (origConsumed (P.take k))) := by
  obtain ⟨P, hP, hal⟩ :=
    walk_ok A B (A.length + B.length) A.length B.length le_rfl le_rfl le_rfl
  exact ⟨P, hP, fun k => ⟨replayCost (P.take k), replay_invariant A B hal k⟩⟩

end EditDistance
